import Mathlib

/-!
Verification of the ETHERLED receiver-side optical decoding pipeline
(`ETHERLED/receiver_decode.py`) against its natural-language specification.

The Python source is shallowly embedded below: NumPy arrays become `List ℚ`
(the only irrational quantity, the standard deviation, is modelled in `ℝ`
via `Real.sqrt` of a rational variance), Python integers become `ℤ`/`ℕ`,
Python list/array slicing with clamping becomes `pySlice`, and the
`RuntimeError` and `cv2.error` failure paths reachable in the embedded
fragment become an `Except`.
Definitions are translated line by line from the source; definitions whose
name starts with `spec` restate the specification's own wording and are
related to the source-derived definitions by the theorems.
-/

namespace ETHERLED

/-- Python basic slicing `l[a:b]` (as used on NumPy arrays along one axis):
negative indices count from the end, and both endpoints are clamped to
`[0, len]`; an empty range yields the empty list. -/
def pySlice {α : Type} (l : List α) (a b : ℤ) : List α :=
  let n : ℤ := l.length
  let a' : ℤ := if a < 0 then max 0 (n + a) else min a n
  let b' : ℤ := if b < 0 then max 0 (n + b) else min b n
  (l.drop a'.toNat).take (b'.toNat - a'.toNat)

/-- Python slicing `l[a:b]` for the common case of nonnegative indices. -/
def pySliceNat {α : Type} (l : List α) (a b : ℕ) : List α :=
  (l.drop a).take (b - a)

/-- NumPy `.mean()` of a rational-valued array (the empty case, which NumPy
turns into NaN with a warning, is unreachable in the embedded fragments). -/
def meanQ (l : List ℚ) : ℚ := l.sum / l.length

/-- NumPy `.mean()` of a `uint8` frame-bit array, taken in `ℚ`. -/
def meanQN (l : List ℕ) : ℚ := (l.sum : ℚ) / l.length

/-- Ascending sort, as performed internally by `np.median`. -/
def sortQ (l : List ℚ) : List ℚ := l.insertionSort (· ≤ ·)

/-- NumPy `np.median`: middle element of the sorted data for odd length,
average of the two middle elements for even length. -/
def npMedian (l : List ℚ) : ℚ :=
  let s := sortQ l
  let n := l.length
  if n % 2 = 1 then s.getD (n / 2) 0
  else (s.getD (n / 2 - 1) 0 + s.getD (n / 2) 0) / 2

/-- NumPy `np.std` squared: the population variance (ddof = 0),
`mean((x - x.mean())^2)`, which is a rational number. -/
def npVariance (l : List ℚ) : ℚ :=
  let m := meanQ l
  ((l.map fun v => (v - m) ^ 2).sum) / l.length

/-- NumPy `np.std`: the square root of the population variance. -/
noncomputable def npStd (l : List ℚ) : ℝ := Real.sqrt (npVariance l)

/-- `np.pad(x, (p, p), mode='edge')`: replicate the first and last samples
`p` times on either side. -/
def edgePad (x : List ℚ) (p : ℕ) : List ℚ :=
  List.replicate p (x.headD 0) ++ x ++ List.replicate p (x.getLastD 0)

/-- `detrend`, line 43: `w = max(3, win if win % 2 == 1 else win + 1)`.
Python `%` on a positive modulus agrees with `Int.emod`. -/
def oddWin (win : ℤ) : ℕ := (max 3 (if win % 2 = 1 then win else win + 1)).toNat

/-- `detrend`, lines 44-46: the moving-median baseline
`med[i] = np.median(padded[i : i + w])` for `i in range(len(x))`. -/
def movingMedian (x : List ℚ) (w : ℕ) : List ℚ :=
  let pad := w / 2
  let padded := edgePad x pad
  (List.range x.length).map fun i => npMedian ((padded.drop i).take w)

/-- `detrend(x, win)` (source lines 41-47): moving-median detrend with the
window coerced to an odd value of at least 3; returns `x - med`. -/
def detrend (x : List ℚ) (win : ℤ) : List ℚ :=
  List.zipWith (fun a m => a - m) x (movingMedian x (oddWin win))

open Classical in
/-- `to_binary(intensity, k_sigma)` (source lines 49-54): threshold the
detrended intensity at `median + k_sigma * sigma`, where
`sigma = float(np.std(intensity)) or 1e-9` (Python `or` replaces an exact
zero by the epsilon `1e-9`); a frame maps to 1 exactly when its value is
strictly above the threshold.  Returns the bit list and the threshold. -/
noncomputable def to_binary (intensity : List ℚ) (kSigma : ℚ) : List ℕ × ℝ :=
  let mu : ℚ := npMedian intensity
  let sigma : ℝ := if npStd intensity = 0 then 1 / 10 ^ 9 else npStd intensity
  let thr : ℝ := (mu : ℝ) + (kSigma : ℝ) * sigma
  (intensity.map fun v : ℚ => if (v : ℝ) > thr then (1 : ℕ) else 0, thr)

/-- Python `int(...)` applied to a float: truncation toward zero. -/
def pyTrunc (q : ℚ) : ℤ := if q < 0 then ⌈q⌉ else ⌊q⌋

/-- The nonnegative-lag autocorrelation
`np.correlate(x, x, mode='full')[len(x)-1:]` at lag `k`:
`ac[k] = sum_i x[i] * x[i+k]`. -/
def acf (x : List ℚ) (k : ℕ) : ℚ :=
  ((List.range (x.length - k)).map fun i => x.getD i 0 * x.getD (i + k) 0).sum

/-- `estimate_bitperiod_autocorr`, line 62: `x = signal - signal.mean()`. -/
def centered (signal : List ℚ) : List ℚ := signal.map fun v => v - meanQ signal

/-- `estimate_bitperiod_autocorr`, line 65:
`min_lag = max(2, int((2 * min_ms / 1000.0) * fps))` (nonnegative since it
is clamped from below by 2). -/
def minLagOf (fps minMs : ℚ) : ℕ := max 2 (pyTrunc (2 * minMs / 1000 * fps)).toNat

/-- `estimate_bitperiod_autocorr`, line 66:
`max_lag = min(len(signal)//2, int((2 * max_ms / 1000.0) * fps))`. -/
def maxLagOf (n : ℕ) (fps maxMs : ℚ) : ℤ :=
  min ((n : ℤ) / 2) (pyTrunc (2 * maxMs / 1000 * fps))

/-- Recursive core of `np.argmax`: scan the remaining values, replacing the
running best `(bi, bv)` only on a strict increase, so the first occurrence
of the maximum wins; `i` is the index of the head of the remaining list. -/
def argmaxGo (bi : ℕ) (bv : ℚ) (i : ℕ) : List ℚ → ℕ
  | [] => bi
  | v :: r => if bv < v then argmaxGo i v (i + 1) r else argmaxGo bi bv (i + 1) r

/-- `np.argmax` on a rational list: index of the first maximal element
(0 on the empty list, whose NumPy counterpart is an error and unreachable
in the embedded fragment). -/
def argmaxFirst : List ℚ → ℕ
  | [] => 0
  | v :: r => argmaxGo 0 v 1 r

/-- `estimate_bitperiod_autocorr(signal, fps, min_ms, max_ms)` (source lines
56-72): autocorrelation-based frames-per-bit estimate.  Returns `none` for a
degenerate search window (`max_lag <= min_lag + 1`), otherwise
`some (bit_period, cycle_frames)` with `lag` the first argmax of
`ac[min_lag:max_lag]` shifted by `min_lag`, `cycle_frames = lag` and
`bit_period = max(1, lag // 2)`. -/
def estimate_bitperiod_autocorr (signal : List ℚ) (fps minMs maxMs : ℚ) :
    Option (ℕ × ℕ) :=
  let x := centered signal
  let minLag := minLagOf fps minMs
  let maxLag := maxLagOf signal.length fps maxMs
  if maxLag ≤ (minLag : ℤ) + 1 then none
  else
    let acSlice := (((List.range signal.length).map (acf x)).drop minLag).take
      (maxLag.toNat - minLag)
    let lag := argmaxFirst acSlice + minLag
    some (max 1 (lag / 2), lag)

/-- `main`, lines 151-156: the bit period actually used by the decoder is
the autocorrelation estimate when `--auto-bit-period` is set and the
estimator succeeds, and the operator-supplied (or default) value otherwise;
the second component is the reported `cycle_frames`. -/
def chosenBitPeriod (autoBitPeriod : Bool) (suppliedBitPeriod : ℕ)
    (d : List ℚ) (fps : ℚ) : ℕ × Option ℕ :=
  if autoBitPeriod then
    match estimate_bitperiod_autocorr d fps 60 220 with
    | some (est, cyc) => (est, some cyc)
    | none => (suppliedBitPeriod, none)
  else (suppliedBitPeriod, none)

/-- `sample_bits_with_offset(frame_bits, bit_period, offset)` (source lines
74-83): group frame-level bits into majority-voted symbol windows starting
at `offset`; `nbits = max(0, (len(frame_bits) - offset) // bit_period)`
(Python `//` is floor division, `Int.fdiv` here), and window `i` is the
slice `frame_bits[offset + i*bit_period : offset + (i+1)*bit_period]`,
whose difference of endpoints is `bit_period`, voted by `mean >= 0.5`. -/
def sample_bits_with_offset (frameBits : List ℕ) (bitPeriod offset : ℕ) : List ℕ :=
  let total : ℤ := (frameBits.length : ℤ) - offset
  let nbits : ℕ := (max 0 (Int.fdiv total bitPeriod)).toNat
  (List.range nbits).map fun i =>
    if (1 : ℚ) / 2 ≤ meanQN ((frameBits.drop (offset + i * bitPeriod)).take bitPeriod)
    then 1 else 0

/-- Error count of `best_alignment_and_ber`, line 96:
`np.sum(np.array(bits[:L]) ^ exp_bits[:L])` (bitwise xor, summed). -/
def hammingErrors (a b : List ℕ) : ℕ := (List.zipWith Nat.xor a b).sum

/-- The alignment record built by `best_alignment_and_ber`:
`{"offset": ..., "ber": ..., "nbits": ..., "measured": ...}`, with `ber`
`none` standing for Python `None`. -/
structure Alignment where
  offset : ℕ
  ber : Option ℚ
  nbits : ℕ
  measured : List ℕ
deriving DecidableEq

/-- Initial value of `best` in `best_alignment_and_ber`, line 88. -/
def initAlign : Alignment := ⟨0, none, 0, []⟩

/-- The candidate produced by one iteration of the `best_alignment_and_ber`
loop at a given offset: `none` when the iteration `continue`s (no decoded
bits, or zero comparable length), otherwise the `(ber, nbits, measured)`
triple it would install. -/
def candidate (fb : List ℕ) (P : ℕ) (expBits : List ℕ) (off : ℕ) :
    Option (ℚ × ℕ × List ℕ) :=
  let bits := sample_bits_with_offset fb P off
  if bits.isEmpty then none
  else
    let L := min bits.length expBits.length
    if L = 0 then none
    else some ((hammingErrors (bits.take L) (expBits.take L) : ℚ) / L, L, bits.take L)

/-- The bit-error-rate offered at one offset (`none` when skipped). -/
def berAt (fb : List ℕ) (P : ℕ) (expBits : List ℕ) (off : ℕ) : Option ℚ :=
  (candidate fb P expBits off).map (·.1)

/-- One iteration of the loop in `best_alignment_and_ber`, lines 89-99:
install the candidate when `best["ber"] is None or ber < best["ber"]`. -/
def alignStep (fb : List ℕ) (P : ℕ) (expBits : List ℕ) (best : Alignment)
    (off : ℕ) : Alignment :=
  match candidate fb P expBits off with
  | none => best
  | some (b, L, meas) =>
    match best.ber with
    | none => ⟨off, some b, L, meas⟩
    | some r => if b < r then ⟨off, some b, L, meas⟩ else best

/-- `best_alignment_and_ber(frame_bits, bit_period, expected)` (source lines
85-100): try all offsets `0 .. bit_period - 1` in order and keep the
minimum-BER alignment (the expected pattern is embedded directly as its bit
list, the image of `[int(c) for c in expected_pattern]`). -/
def best_alignment_and_ber (fb : List ℕ) (P : ℕ) (expBits : List ℕ) : Alignment :=
  (List.range P).foldl (alignStep fb P expBits) initAlign

/-- A BGR pixel, the layout OpenCV hands to the pipeline. -/
abbrev Pixel := ℕ × ℕ × ℕ

/-- A video frame: rows of BGR pixels. -/
abbrev Frame := List (List Pixel)

/-- A manual region of interest `(x, y, w, h)` (Python ints). -/
structure RoiRect where
  x : ℤ
  y : ℤ
  w : ℤ
  h : ℤ
deriving DecidableEq

/-- The bounds invariant on an ROI demanded by the specification (data
model §3): nonnegative origin, positive size, contained in the frame. -/
def roiValid (r : RoiRect) (frameW frameH : ℤ) : Prop :=
  0 ≤ r.x ∧ 0 ≤ r.y ∧ 0 < r.w ∧ 0 < r.h ∧ r.x + r.w ≤ frameW ∧ r.y + r.h ≤ frameH

/-- The V channel of `cv2.cvtColor(..., COLOR_BGR2HSV)`: the value channel
of a BGR pixel is `max(B, G, R)`. -/
def hsvValue (p : Pixel) : ℕ := max p.1 (max p.2.1 p.2.2)

/-- `roi_intensity_series`, line 119: `frame[y:y+h, x:x+w]`, NumPy basic
slicing on both axes (out-of-bounds parts are silently clipped). -/
def cropRoi (frame : Frame) (r : RoiRect) : Frame :=
  (pySlice frame r.y (r.y + r.h)).map fun row => pySlice row r.x (r.x + r.w)

/-- The failures of `roi_intensity_series` representable in the embedding
(the video is modelled as its list of frames, so the unopenable-path error
has no counterpart): `emptyVideo` is the `RuntimeError` of line 112, and
`cvError` is the `cv2.error` that `cv2.cvtColor` raises on an empty crop
(`assert !_src.empty()`). -/
inductive DecodeErr where
  | emptyVideo
  | cvError
deriving DecidableEq

/-- `measure(frame)` (source lines 118-121): `cv2.cvtColor` is applied to
the cropped ROI before any mean, and raises `cv2.error` when the crop
contains no pixel (`assert !_src.empty()`); on a nonempty crop the result
is the mean of the HSV value channel over the crop. -/
def measureRoi (frame : Frame) (r : RoiRect) : Except DecodeErr ℚ :=
  let vals := ((cropRoi frame r).flatten).map fun p => (hsvValue p : ℚ)
  if vals.isEmpty then Except.error DecodeErr.cvError else Except.ok (meanQ vals)

/-- `roi_intensity_series`, lines 106-108: the effective fps is the
metadata value with fallback 30.0 when it is 0 (Python `or`), overridden by
`fps_override` only when that override is truthy, i.e. present and
nonzero. -/
def effectiveFps (metaFps : ℚ) (fpsOverride : Option ℚ) : ℚ :=
  let fps := if metaFps = 0 then 30 else metaFps
  match fpsOverride with
  | none => fps
  | some o => if o = 0 then fps else o

/-- `roi_intensity_series(video, roi, interactive=False, fps_override)`
(source lines 102-129) on the manual-ROI path (`roi` supplied by the
caller; the interactive and auto-ROI branches of line 114 are not taken):
fails when no frame can be read, and otherwise measures every frame in
order with the supplied rectangle as is — the rectangle itself is never
validated, but a `measure` call whose clipped crop is empty aborts the run
with the `cv2.error` it raises. -/
def roiIntensitySeries (frames : List Frame) (roi : RoiRect) (metaFps : ℚ)
    (fpsOverride : Option ℚ) : Except DecodeErr (List ℚ × ℚ × RoiRect) :=
  let fps := effectiveFps metaFps fpsOverride
  match frames with
  | [] => Except.error DecodeErr.emptyVideo
  | f :: rest => do
    let intens ← (f :: rest).mapM fun fr => measureRoi fr roi
    Except.ok (intens, fps, roi)

/-- The decode report assembled in `main`, lines 178-191 (`Option` models
the `None` / NaN entries). -/
structure Report where
  fps : ℚ
  frames : ℕ
  roi : RoiRect
  bitPeriodFrames : ℕ
  cycleFramesEst : Option ℕ
  offsetFrames : ℕ
  berVsExpected : Option ℚ
  nbitsCompared : ℕ
  thresholdDetrended : ℝ
  meanIntensityOn : Option ℚ
  meanIntensityOff : Option ℚ
  onMinusOff : Option ℚ

/-- Membership of frame `j` in `mask_on` after the loop of `main`, lines
164-172: some symbol `i` with expected bit 1 covers `j`, where the loop has
not broken yet (`z <= len(frame_bits)`). -/
def assignedOn (expTrunc : List ℕ) (off P fbLen nb j : ℕ) : Bool :=
  (List.range nb).any fun i =>
    decide (expTrunc.getD i 0 = 1) && decide (off + i * P ≤ j) &&
    decide (j < off + (i + 1) * P) && decide (off + (i + 1) * P ≤ fbLen)

/-- Membership of frame `j` in `mask_off` (the `else` branch of line 172,
taken for any expected bit other than 1). -/
def assignedOff (expTrunc : List ℕ) (off P fbLen nb j : ℕ) : Bool :=
  (List.range nb).any fun i =>
    decide (¬ expTrunc.getD i 0 = 1) && decide (off + i * P ≤ j) &&
    decide (j < off + (i + 1) * P) && decide (off + (i + 1) * P ≤ fbLen)

/-- `intens[mask].mean() if mask.any() else nan` (source lines 174-175),
with the mask given as a predicate on frame indices below `len`. -/
def maskedMean (intens : List ℚ) (mask : ℕ → Bool) (len : ℕ) : Option ℚ :=
  let vals := ((List.range len).filter fun j => mask j).map fun j => intens.getD j 0
  if vals.isEmpty then none else some (meanQ vals)

/-- The report-building tail of `main`, lines 158-191: run the alignment
search, build the ON/OFF frame masks from the expected pattern at the best
offset, and assemble the report (`cycle_frames_est` reflects the Python
truthiness test `int(cycle_frames) if cycle_frames else None`). -/
def buildReport (intens : List ℚ) (fps : ℚ) (roi : RoiRect) (frameBits : List ℕ)
    (thr : ℝ) (bitPeriod : ℕ) (cycleFrames : Option ℕ) (expBits : List ℕ) : Report :=
  let best := best_alignment_and_ber frameBits bitPeriod expBits
  let expTrunc := expBits.take best.nbits
  let len := frameBits.length
  let meanOn := maskedMean intens (assignedOn expTrunc best.offset bitPeriod len best.nbits) len
  let meanOff := maskedMean intens (assignedOff expTrunc best.offset bitPeriod len best.nbits) len
  { fps := fps
    frames := intens.length
    roi := roi
    bitPeriodFrames := bitPeriod
    cycleFramesEst :=
      match cycleFrames with
      | some c => if c = 0 then none else some c
      | none => none
    offsetFrames := best.offset
    berVsExpected := best.ber
    nbitsCompared := best.nbits
    thresholdDetrended := thr
    meanIntensityOn := meanOn
    meanIntensityOff := meanOff
    onMinusOff :=
      match meanOn, meanOff with
      | some a, some b => some (a - b)
      | _, _ => none }

/-- Noiseless synthetic frame-bit sequence: every bit of the pattern
repeated `P` times. -/
def encodeBits (p : List ℕ) (P : ℕ) : List ℕ := (p.map (List.replicate P)).flatten

/-- Flip the frame-level bit at position `j` (bits are 0/1). -/
def flipAt (l : List ℕ) (j : ℕ) : List ℕ := l.set j (1 - l.getD j 0)

/-- Specification wording (§4.3): the requested detrend window length,
coerced to the next odd integer that is at least 3. -/
def specOddWin (win : ℤ) : ℕ :=
  if win ≤ 3 then 3 else if win % 2 = 1 then win.toNat else (win + 1).toNat

/-- Index clamping realizing edge extension of a length-`n` sequence. -/
def clampIdx (n : ℕ) (k : ℤ) : ℕ := (min (max k 0) ((n : ℤ) - 1)).toNat

/-- Specification wording (§4.3): the symmetric odd window of length
`specOddWin win` centered at index `i` over the edge-extended series. -/
def specWindow (x : List ℚ) (win : ℤ) (i : ℕ) : List ℚ :=
  let w := specOddWin win
  (List.range w).map fun j : ℕ =>
    x.getD (clampIdx x.length ((i : ℤ) + (j : ℤ) - (w : ℤ) / 2)) 0

/-- Loop invariant of `best_alignment_and_ber` after the offsets `0 .. k-1`
have been processed: either every offset so far was skipped and `best` is
still the initial record, or `best` holds the first offset realizing the
minimum BER among the offsets processed so far. -/
def alignInv (fb : List ℕ) (P : ℕ) (e : List ℕ) (k : ℕ) (s : Alignment) : Prop :=
  (s = initAlign ∧ ∀ off, off < k → berAt fb P e off = none) ∨
  (s.offset < k ∧ ∃ r, s.ber = some r ∧ berAt fb P e s.offset = some r ∧
    (∀ off, off < k → ∀ b, berAt fb P e off = some b → r ≤ b) ∧
    (∀ off, off < s.offset → berAt fb P e off ≠ some r))

/-! ## Theorems -/

/-- Claim C10: a caller-supplied fps override equal to 0.0 is silently
ignored — the decoder then uses the metadata fps (with the 30.0 fallback
when the metadata reports 0), because the override is applied only when it
is nonzero. -/
theorem claim_C10_fps_override_zero (metaFps : ℚ) :
    effectiveFps metaFps (some 0) = effectiveFps metaFps none ∧
    effectiveFps metaFps none = (if metaFps = 0 then 30 else metaFps) := by
  constructor <;> simp [effectiveFps]

/-- Claim C1 is false of the code: an out-of-bounds manual ROI (here
`(-1, 0, 5, 5)` against a 2×2 frame, violating `0 ≤ x` and `x+w ≤ W`) does
not make the decode fail with an `InvalidRegion` error; the run succeeds
and extracts an intensity from the silently clipped crop. -/
theorem claim_C1_counterexample :
    ¬ roiValid ⟨-1, 0, 5, 5⟩ 2 2 ∧
    (roiIntensitySeries [[[(10, 20, 30), (10, 20, 30)], [(10, 20, 30), (10, 20, 30)]]]
      ⟨-1, 0, 5, 5⟩ 30 none).isOk = true := by
  exact ⟨fun h => absurd h.1 (by decide), rfl⟩

lemma mapM_measureRoi (roi : RoiRect) (l : List Frame)
    (h : ∀ fr ∈ l, (cropRoi fr roi).flatten ≠ []) :
    l.mapM (fun fr => measureRoi fr roi) =
      Except.ok (l.map fun fr =>
        meanQ (((cropRoi fr roi).flatten).map fun p => (hsvValue p : ℚ))) := by
  induction l with
  | nil => rfl
  | cons f t ih =>
    have hf : measureRoi f roi =
        Except.ok (meanQ (((cropRoi f roi).flatten).map fun p => (hsvValue p : ℚ))) := by
      have hc : ¬((((cropRoi f roi).flatten).map fun p => (hsvValue p : ℚ)).isEmpty = true) := by
        simp only [List.isEmpty_iff, List.map_eq_nil_iff]
        exact h f (List.mem_cons_self f t)
      simp only [measureRoi]
      rw [if_neg hc]
    rw [List.mapM_cons, hf, ih fun fr hfr => h fr (List.mem_cons_of_mem f hfr)]
    rfl

/-- Claim C1 (amended): the manual ROI is never validated against the
bounds invariants and no `InvalidRegion` error exists — for every supplied
rectangle, in or out of bounds, whose silently clipped crop still contains
at least one pixel in every frame, the decode run on a nonempty video
succeeds with intensities extracted from the clipped crop; a rectangle
whose clipped crop is empty instead aborts with the `cv2.error` that
`cvtColor` raises, still not with `InvalidRegion`. -/
theorem claim_C1_roi_not_validated (frames : List Frame) (roi : RoiRect)
    (metaFps : ℚ) (ov : Option ℚ) (h : frames ≠ [])
    (hne : ∀ fr ∈ frames, (cropRoi fr roi).flatten ≠ []) :
    roiIntensitySeries frames roi metaFps ov =
      Except.ok
        (frames.map fun fr =>
          meanQ (((cropRoi fr roi).flatten).map fun p => (hsvValue p : ℚ)),
        effectiveFps metaFps ov, roi) := by
  match frames with
  | [] => exact absurd rfl h
  | f :: rest =>
    unfold roiIntensitySeries
    dsimp only
    rw [mapM_measureRoi roi (f :: rest) hne]
    rfl

/-- Witness for claim C1 (amended) at a concrete one-frame video and an
out-of-bounds rectangle whose clipped crop keeps one pixel. -/
theorem claim_C1_witness :
    ([[[(10, 20, 30)]]] : List Frame) ≠ [] ∧
    (∀ fr ∈ ([[[(10, 20, 30)]]] : List Frame),
      (cropRoi fr ⟨-1, 0, 5, 5⟩).flatten ≠ []) ∧
    roiIntensitySeries [[[(10, 20, 30)]]] ⟨-1, 0, 5, 5⟩ 30 none =
      Except.ok
        (([[[((10 : ℕ), (20 : ℕ), (30 : ℕ))]]] : List Frame).map fun fr =>
          meanQ (((cropRoi fr ⟨-1, 0, 5, 5⟩).flatten).map fun p => (hsvValue p : ℚ)),
        effectiveFps 30 none, ⟨-1, 0, 5, 5⟩) :=
  ⟨by simp, by decide,
    claim_C1_roi_not_validated _ _ _ _ (by simp) (by decide)⟩

/-- Folding the alignment step over offsets that are all skipped leaves the
running best alignment unchanged. -/
lemma foldl_alignStep_skip (fb : List ℕ) (P : ℕ) (e : List ℕ) (l : List ℕ)
    (s : Alignment) (h : ∀ off ∈ l, candidate fb P e off = none) :
    l.foldl (alignStep fb P e) s = s := by
  induction l generalizing s with
  | nil => rfl
  | cons a t ih =>
    have ha : alignStep fb P e s a = s := by
      unfold alignStep
      rw [h a (List.mem_cons_self a t)]
    rw [List.foldl_cons, ha]
    exact ih s fun off hoff => h off (List.mem_cons_of_mem a hoff)

/-- Claim C7: if no phase offset in `[0, BitPeriod)` yields any comparable
bits, the alignment result is the initial record (null BER, zero compared
bits, offset 0), and the decoder still assembles the full report — with all
diagnostic fields populated and the BER fields null — rather than
raising. -/
theorem claim_C7_inconclusive_alignment (intens : List ℚ) (fps : ℚ)
    (roi : RoiRect) (fb : List ℕ) (thr : ℝ) (P : ℕ) (cyc : Option ℕ)
    (expBits : List ℕ) (h : ∀ off, off < P → candidate fb P expBits off = none) :
    best_alignment_and_ber fb P expBits = initAlign ∧
    (buildReport intens fps roi fb thr P cyc expBits).berVsExpected = none ∧
    (buildReport intens fps roi fb thr P cyc expBits).nbitsCompared = 0 ∧
    (buildReport intens fps roi fb thr P cyc expBits).offsetFrames = 0 ∧
    (buildReport intens fps roi fb thr P cyc expBits).fps = fps ∧
    (buildReport intens fps roi fb thr P cyc expBits).frames = intens.length ∧
    (buildReport intens fps roi fb thr P cyc expBits).roi = roi ∧
    (buildReport intens fps roi fb thr P cyc expBits).bitPeriodFrames = P ∧
    (buildReport intens fps roi fb thr P cyc expBits).thresholdDetrended = thr ∧
    (buildReport intens fps roi fb thr P cyc expBits).meanIntensityOn = none ∧
    (buildReport intens fps roi fb thr P cyc expBits).meanIntensityOff = none ∧
    (buildReport intens fps roi fb thr P cyc expBits).onMinusOff = none := by
  have hbest : best_alignment_and_ber fb P expBits = initAlign :=
    foldl_alignStep_skip fb P expBits (List.range P) initAlign
      fun off hoff => h off (List.mem_range.mp hoff)
  refine ⟨hbest, ?_⟩
  simp [buildReport, hbest, initAlign, maskedMean, assignedOn, assignedOff]

/-- Witness for claim C7 on a concrete frame-bit sequence shorter than the
bit period, where every offset yields zero decoded bits. -/
theorem claim_C7_witness :
    (∀ off, off < 3 → candidate [1] 3 [1, 0] off = none) ∧
    best_alignment_and_ber [1] 3 [1, 0] = initAlign ∧
    (buildReport [5] 30 ⟨0, 0, 1, 1⟩ [1] 0 3 none [1, 0]).berVsExpected = none := by
  have h : ∀ off, off < 3 → candidate [1] 3 [1, 0] off = none := by
    intro off hoff
    interval_cases off <;> rfl
  refine ⟨h, ?_, ?_⟩
  · exact (claim_C7_inconclusive_alignment [5] 30 ⟨0, 0, 1, 1⟩ [1] 0 3 none [1, 0] h).1
  · exact (claim_C7_inconclusive_alignment [5] 30 ⟨0, 0, 1, 1⟩ [1] 0 3 none [1, 0] h).2.1

lemma encodeBits_nil (P : ℕ) : encodeBits [] P = [] := rfl

lemma encodeBits_cons (a : ℕ) (t : List ℕ) (P : ℕ) :
    encodeBits (a :: t) P = List.replicate P a ++ encodeBits t P := rfl

lemma encodeBits_length (p : List ℕ) (P : ℕ) : (encodeBits p P).length = P * p.length := by
  induction p with
  | nil => simp [encodeBits_nil]
  | cons a t ih =>
    simp only [encodeBits_cons, List.length_append, List.length_replicate, ih,
      List.length_cons]
    ring

lemma encodeBits_getD (p : List ℕ) (P : ℕ) (hP : 0 < P) :
    ∀ m, m < P * p.length → (encodeBits p P).getD m 0 = p.getD (m / P) 0 := by
  induction p with
  | nil => intro m hm; simp at hm
  | cons a t ih =>
    intro m hm
    rw [encodeBits_cons]
    by_cases h : m < P
    · rw [List.getD_eq_getElem _ _ (by simp [encodeBits_length]; omega),
        List.getElem_append_left (by simpa using h), List.getElem_replicate,
        Nat.div_eq_of_lt h, List.getD_cons_zero]
    · push_neg at h
      have hm' : m - P < P * t.length := by
        simp only [List.length_cons] at hm
        have : P * (t.length + 1) = P * t.length + P := by ring
        omega
      rw [List.getD_append_right _ _ _ _ (by simpa using h)]
      simp only [List.length_replicate]
      rw [ih (m - P) hm', Nat.div_eq_sub_div hP h, List.getD_cons_succ]

lemma meanQN_replicate (P : ℕ) (hP : 0 < P) (b : ℕ) :
    meanQN (List.replicate P b) = b := by
  have hP' : (P : ℚ) ≠ 0 := Nat.cast_ne_zero.mpr hP.ne'
  simp [meanQN, List.sum_replicate, smul_eq_mul]
  field_simp

lemma sample_bits_length (fb : List ℕ) (P off : ℕ) :
    (sample_bits_with_offset fb P off).length =
      (max 0 (Int.fdiv ((fb.length : ℤ) - off) P)).toNat := by
  simp [sample_bits_with_offset]

lemma sample_bits_getD (fb : List ℕ) (P off i : ℕ)
    (hi : i < (sample_bits_with_offset fb P off).length) :
    (sample_bits_with_offset fb P off).getD i 0 =
      if (1 : ℚ) / 2 ≤ meanQN ((fb.drop (off + i * P)).take P) then 1 else 0 := by
  unfold sample_bits_with_offset at hi ⊢
  simp only [List.length_map, List.length_range] at hi
  rw [List.getD_eq_getElem _ _ (by simpa using hi), List.getElem_map, List.getElem_range]

lemma sample_bits_encode_length (p : List ℕ) (P : ℕ) (hP : 0 < P) :
    (sample_bits_with_offset (encodeBits p P) P 0).length = p.length := by
  rw [sample_bits_length, encodeBits_length]
  have h0 : ((P * p.length : ℕ) : ℤ) - ((0 : ℕ) : ℤ) = (P : ℤ) * p.length := by
    push_cast
    ring
  rw [h0, Int.mul_fdiv_cancel_left _ (by exact_mod_cast hP.ne')]
  omega

lemma window_encode (p : List ℕ) (P : ℕ) (hP : 0 < P) (i : ℕ) (hi : i < p.length) :
    ((encodeBits p P).drop (i * P)).take P = List.replicate P (p.getD i 0) := by
  apply List.ext_getElem
  · have h1 : P * (i + 1) ≤ P * p.length := Nat.mul_le_mul_left P hi
    have h2 : P * (i + 1) = i * P + P := by ring
    simp [encodeBits_length]
    omega
  · intro t h1 h2
    simp only [List.getElem_take, List.getElem_drop, List.getElem_replicate]
    have ht : t < P := by simpa using h2
    have hlt : i * P + t < P * p.length := by
      have ha : P * (i + 1) ≤ P * p.length := Nat.mul_le_mul_left P hi
      have hb : P * (i + 1) = i * P + P := by ring
      omega
    rw [← List.getD_eq_getElem _ 0 (by rw [encodeBits_length]; exact hlt),
      encodeBits_getD p P hP _ hlt]
    congr 1
    rw [mul_comm i P, Nat.mul_add_div hP, Nat.div_eq_of_lt ht]
    omega

lemma decode_bit_eq (b : ℕ) (hb : b = 0 ∨ b = 1) :
    (if (1 : ℚ) / 2 ≤ (b : ℚ) then (1 : ℕ) else 0) = b := by
  rcases hb with hb | hb <;> subst hb <;> norm_num

lemma sample_bits_encode (p : List ℕ) (hbits : ∀ b ∈ p, b = 0 ∨ b = 1) (P : ℕ)
    (hP : 0 < P) : sample_bits_with_offset (encodeBits p P) P 0 = p := by
  apply List.ext_getElem
  · rw [sample_bits_encode_length p P hP]
  · intro i h1 h2
    have hi : i < (sample_bits_with_offset (encodeBits p P) P 0).length := h1
    rw [← List.getD_eq_getElem _ 0 h1, sample_bits_getD _ _ _ _ hi]
    simp only [Nat.zero_add]
    rw [window_encode p P hP i h2, meanQN_replicate P hP, List.getD_eq_getElem _ _ h2]
    exact decode_bit_eq _ (hbits _ (List.getElem_mem h2))

lemma hammingErrors_self (l : List ℕ) : hammingErrors l l = 0 := by
  induction l with
  | nil => rfl
  | cons a t ih =>
    have hstep : hammingErrors (a :: t) (a :: t) = Nat.xor a a + hammingErrors t t := rfl
    have hx : Nat.xor a a = 0 := Nat.xor_self a
    rw [hstep, hx, ih]

lemma candidate_perfect (fb : List ℕ) (P : ℕ) (p : List ℕ) (hp : p ≠ [])
    (hs : sample_bits_with_offset fb P 0 = p) :
    candidate fb P p 0 = some (0, p.length, p) := by
  unfold candidate
  rw [hs]
  rw [if_neg (by simpa [List.isEmpty_iff] using hp), min_self, if_neg (by
    simpa using List.length_pos.mpr hp |>.ne'), List.take_length,
    hammingErrors_self]
  simp

lemma candidate_fst_nonneg (fb : List ℕ) (P : ℕ) (e : List ℕ) (off : ℕ)
    (b : ℚ) (L : ℕ) (m : List ℕ) (h : candidate fb P e off = some (b, L, m)) :
    0 ≤ b := by
  unfold candidate at h
  dsimp only at h
  split_ifs at h with h1 h2
  have hb := congrArg (fun o => (Option.getD o (0, 0, [])).1) h
  simp only [Option.getD_some] at hb
  rw [← hb]
  positivity

lemma foldl_alignStep_zero (fb : List ℕ) (P : ℕ) (e : List ℕ) (l : List ℕ)
    (s : Alignment) (hs : s.ber = some 0) :
    l.foldl (alignStep fb P e) s = s := by
  induction l with
  | nil => rfl
  | cons a t ih =>
    have ha : alignStep fb P e s a = s := by
      unfold alignStep
      cases hc : candidate fb P e a with
      | none => rfl
      | some v =>
        obtain ⟨b, L, m⟩ := v
        rw [hs]
        simp only
        rw [if_neg (not_lt.mpr (candidate_fst_nonneg fb P e a b L m hc))]
    rw [List.foldl_cons, ha, ih]

/-- Claim C2: for every non-empty bit pattern `p` and bit period `P ≥ 1`,
the alignment search on the noiseless synthetic frame-bit sequence (each
bit of `p` repeated exactly `P` times) against expected pattern `p` returns
winning offset 0 and bit-error-rate exactly 0. -/
theorem claim_C2_perfect_alignment (p : List ℕ) (hp : p ≠ [])
    (hbits : ∀ b ∈ p, b = 0 ∨ b = 1) (P : ℕ) (hP : 1 ≤ P) :
    (best_alignment_and_ber (encodeBits p P) P p).offset = 0 ∧
    (best_alignment_and_ber (encodeBits p P) P p).ber = some 0 := by
  have hcand : candidate (encodeBits p P) P p 0 = some (0, p.length, p) :=
    candidate_perfect _ _ _ hp (sample_bits_encode p hbits P hP)
  have hstep : alignStep (encodeBits p P) P p initAlign 0 = ⟨0, some 0, p.length, p⟩ := by
    unfold alignStep initAlign
    rw [hcand]
  obtain ⟨n, rfl⟩ : ∃ n, P = n + 1 := ⟨P - 1, by omega⟩
  unfold best_alignment_and_ber
  rw [List.range_eq_range', List.range'_succ, List.foldl_cons, hstep,
    foldl_alignStep_zero _ _ _ _ _ rfl]
  exact ⟨rfl, rfl⟩

/-- Witness for claim C2 at the concrete pattern `[1,0]` and bit period 3. -/
theorem claim_C2_witness :
    (best_alignment_and_ber (encodeBits [1, 0] 3) 3 [1, 0]).offset = 0 ∧
    (best_alignment_and_ber (encodeBits [1, 0] 3) 3 [1, 0]).ber = some 0 :=
  claim_C2_perfect_alignment [1, 0] (by simp) (by decide) 3 (by norm_num)

lemma flipAt_length (l : List ℕ) (j : ℕ) : (flipAt l j).length = l.length := by
  simp [flipAt]

lemma flipAt_getD (l : List ℕ) (j m : ℕ) (hm : m < l.length) :
    (flipAt l j).getD m 0 = if j = m then 1 - l.getD j 0 else l.getD m 0 := by
  rw [List.getD_eq_getElem _ 0 (by simpa [flipAt_length] using hm)]
  unfold flipAt
  rw [List.getElem_set]
  by_cases hje : j = m
  · rw [if_pos hje, if_pos hje]
  · rw [if_neg hje, if_neg hje, List.getD_eq_getElem _ 0 hm]

lemma take_drop_three (l : List ℕ) (a : ℕ) (h : a + 3 ≤ l.length) :
    (l.drop a).take 3 = [l.getD a 0, l.getD (a + 1) 0, l.getD (a + 2) 0] := by
  rw [List.getD_eq_getElem _ 0 (show a < l.length by omega),
    List.getD_eq_getElem _ 0 (show a + 1 < l.length by omega),
    List.getD_eq_getElem _ 0 (show a + 2 < l.length by omega),
    List.drop_eq_getElem_cons (show a < l.length by omega),
    List.drop_eq_getElem_cons (show a + 1 < l.length by omega),
    List.drop_eq_getElem_cons (show a + 2 < l.length by omega)]
  rfl

lemma sample_bits_encode_flip (p : List ℕ) (hbits : ∀ b ∈ p, b = 0 ∨ b = 1)
    (j : ℕ) (hj : j < 3 * p.length) :
    sample_bits_with_offset (flipAt (encodeBits p 3) j) 3 0 = p := by
  have hfb : (encodeBits p 3).length = 3 * p.length := encodeBits_length p 3
  have hlen : (flipAt (encodeBits p 3) j).length = 3 * p.length := by
    rw [flipAt_length, hfb]
  have hslen : (sample_bits_with_offset (flipAt (encodeBits p 3) j) 3 0).length
      = p.length := by
    rw [sample_bits_length, hlen]
    push_cast
    rw [sub_zero, Int.mul_fdiv_cancel_left _ (by norm_num : (3 : ℤ) ≠ 0)]
    omega
  apply List.ext_getElem
  · rw [hslen]
  · intro i h1 h2
    have hi3 : i * 3 + 3 ≤ (flipAt (encodeBits p 3) j).length := by
      rw [hlen]
      omega
    rw [← List.getD_eq_getElem _ 0 h1, sample_bits_getD _ _ _ _ h1]
    simp only [Nat.zero_add]
    rw [take_drop_three _ _ hi3]
    have hval : ∀ t, t < 3 → (flipAt (encodeBits p 3) j).getD (i * 3 + t) 0
        = if j = i * 3 + t then 1 - p.getD i 0 else p.getD i 0 := by
      intro t ht
      have hm : i * 3 + t < (encodeBits p 3).length := by
        rw [hfb]
        omega
      have henc : ∀ m, m < 3 * p.length → (encodeBits p 3).getD m 0 = p.getD (m / 3) 0 :=
        fun m hm' => encodeBits_getD p 3 (by norm_num) m (by omega)
      rw [flipAt_getD _ _ _ hm]
      by_cases hje : j = i * 3 + t
      · rw [if_pos hje, if_pos hje, henc j (by omega)]
        have hdiv : j / 3 = i := by omega
        rw [hdiv]
      · rw [if_neg hje, if_neg hje, henc _ (by omega)]
        have hdiv : (i * 3 + t) / 3 = i := by omega
        rw [hdiv]
    have hv0 := hval 0 (by norm_num)
    have hv1 := hval 1 (by norm_num)
    have hv2 := hval 2 (by norm_num)
    simp only [Nat.add_zero] at hv0
    rw [hv0, hv1, hv2, ← List.getD_eq_getElem _ 0 h2]
    have hmem : p.getD i 0 ∈ p := by
      rw [List.getD_eq_getElem _ 0 h2]
      exact List.getElem_mem h2
    rcases hbits (p.getD i 0) hmem with hb | hb <;> rw [hb] <;>
      by_cases e0 : j = i * 3 <;> by_cases e1 : j = i * 3 + 1 <;>
      by_cases e2 : j = i * 3 + 2 <;>
      first
        | omega
        | norm_num [e0, e1, e2, meanQN]

/-- Claim C9: flipping exactly one frame-level bit in the noiseless
encoding of an `N`-symbol pattern at bit period 3 still aligns: at offset 0
the decoded sequence's bit-error-rate against the original pattern is at
most `1/N` (majority voting absorbs the flip, so the rate is in fact 0). -/
theorem claim_C9_single_flip_ber (p : List ℕ) (hp : p ≠ [])
    (hbits : ∀ b ∈ p, b = 0 ∨ b = 1) (j : ℕ) (hj : j < 3 * p.length) :
    ∃ r, berAt (flipAt (encodeBits p 3) j) 3 p 0 = some r ∧
      r ≤ 1 / (p.length : ℚ) := by
  have hcand : candidate (flipAt (encodeBits p 3) j) 3 p 0 = some (0, p.length, p) :=
    candidate_perfect _ _ _ hp (sample_bits_encode_flip p hbits j hj)
  refine ⟨0, ?_, ?_⟩
  · simp [berAt, hcand]
  · positivity

/-- Witness for claim C9: pattern `[1,0]` at bit period 3 with frame 2
flipped. -/
theorem claim_C9_witness :
    ∃ r, berAt (flipAt (encodeBits [1, 0] 3) 2) 3 [1, 0] 0 = some r ∧
      r ≤ 1 / (([1, 0] : List ℕ).length : ℚ) :=
  claim_C9_single_flip_ber [1, 0] (by simp) (by decide) 2 (by norm_num)

lemma alignStep_preserves (fb : List ℕ) (P : ℕ) (e : List ℕ) (k : ℕ)
    (s : Alignment) (h : alignInv fb P e k s) :
    alignInv fb P e (k + 1) (alignStep fb P e s k) := by
  unfold alignStep
  cases hc : candidate fb P e k with
  | none =>
    have hbk : berAt fb P e k = none := by simp [berAt, hc]
    rcases h with ⟨hs, hall⟩ | ⟨hoff, r, hber, hsome, hmin, htie⟩
    · exact Or.inl ⟨hs, fun off hoff => by
        rcases Nat.lt_succ_iff_lt_or_eq.mp hoff with h' | h'
        · exact hall off h'
        · subst h'; exact hbk⟩
    · refine Or.inr ⟨Nat.lt_succ_of_lt hoff, r, hber, hsome, ?_, htie⟩
      intro off hoff' b hb
      rcases Nat.lt_succ_iff_lt_or_eq.mp hoff' with h' | h'
      · exact hmin off h' b hb
      · subst h'; rw [hbk] at hb; exact absurd hb (by simp)
  | some v =>
    obtain ⟨b, L, m⟩ := v
    have hbk : berAt fb P e k = some b := by simp [berAt, hc]
    rcases h with ⟨hs, hall⟩ | ⟨hoff, r, hber, hsome, hmin, htie⟩
    · subst hs
      simp only [initAlign]
      refine Or.inr ⟨Nat.lt_succ_self k, b, rfl, hbk, ?_, ?_⟩
      · intro off hoff' b' hb'
        rcases Nat.lt_succ_iff_lt_or_eq.mp hoff' with h' | h'
        · rw [hall off h'] at hb'; exact absurd hb' (by simp)
        · subst h'; rw [hbk] at hb'; exact le_of_eq (Option.some.inj hb')
      · intro off hoff' hb'
        rw [hall off hoff'] at hb'
        exact absurd hb' (by simp)
    · rw [hber]
      dsimp only
      by_cases hlt : b < r
      · rw [if_pos hlt]
        refine Or.inr ⟨Nat.lt_succ_self k, b, rfl, hbk, ?_, ?_⟩
        · intro off hoff' b' hb'
          rcases Nat.lt_succ_iff_lt_or_eq.mp hoff' with h' | h'
          · exact le_trans (le_of_lt hlt) (hmin off h' b' hb')
          · subst h'; rw [hbk] at hb'; exact le_of_eq (Option.some.inj hb')
        · intro off hoff' hb'
          have hrb := hmin off hoff' b hb'
          exact absurd hlt (not_lt.mpr hrb)
      · rw [if_neg hlt]
        refine Or.inr ⟨Nat.lt_succ_of_lt hoff, r, hber, hsome, ?_, htie⟩
        intro off hoff' b' hb'
        rcases Nat.lt_succ_iff_lt_or_eq.mp hoff' with h' | h'
        · exact hmin off h' b' hb'
        · subst h'
          rw [hbk] at hb'
          rw [← Option.some.inj hb']
          exact not_lt.mp hlt

lemma foldl_alignStep_inv (fb : List ℕ) (P : ℕ) (e : List ℕ) :
    ∀ (n k : ℕ) (s : Alignment), alignInv fb P e k s →
      alignInv fb P e (k + n) ((List.range' k n).foldl (alignStep fb P e) s) := by
  intro n
  induction n with
  | zero => intro k s h; simpa using h
  | succ n ih =>
    intro k s h
    rw [List.range'_succ, List.foldl_cons]
    have h1 := alignStep_preserves fb P e k s h
    have h2 := ih (k + 1) _ h1
    have : k + 1 + n = k + (n + 1) := by omega
    rwa [this] at h2

lemma best_alignment_inv (fb : List ℕ) (P : ℕ) (e : List ℕ) :
    alignInv fb P e P (best_alignment_and_ber fb P e) := by
  have h0 : alignInv fb P e 0 initAlign := Or.inl ⟨rfl, fun off h => absurd h (by omega)⟩
  have := foldl_alignStep_inv fb P e P 0 initAlign h0
  rw [Nat.zero_add] at this
  rwa [best_alignment_and_ber, List.range_eq_range']

/-- Claim C3 fails as stated on the length formula: at `FrameBits = [0]`,
`P = 3`, `o = 2` the sampler produces 0 symbol bits, whereas
`floor((len(FrameBits) - o) / P) = floor(-1/3) = -1`. -/
theorem claim_C3_counterexample :
    ¬ (((sample_bits_with_offset [0] 3 2).length : ℤ) =
        Int.fdiv ((([0] : List ℕ).length : ℤ) - (2 : ℕ)) (3 : ℕ)) := by
  decide

/-- Claim C3 (amended): the length formula is clamped at zero,
`len(bits) = max(0, floor((len(FrameBits) - o) / P))` (the two agree
whenever `o ≤ len(FrameBits)`); the rest of the claim is as stated: the
`i`-th symbol bit is 1 exactly when the mean of the window
`FrameBits[o+i*P : o+(i+1)*P]` is at least 0.5 (bits are 0/1, incomplete
trailing windows dropped by the length formula), and the alignment search
returns the offset with the lowest bit-error-rate among the offsets with
comparable bits, ties broken by the lowest offset value. -/
theorem claim_C3_sampler_and_alignment (fb : List ℕ) (P : ℕ) (hP : 1 ≤ P)
    (o : ℕ) (ho : o < P) (expBits : List ℕ) :
    (((sample_bits_with_offset fb P o).length : ℤ) =
      max 0 (Int.fdiv ((fb.length : ℤ) - (o : ℤ)) (P : ℤ))) ∧
    (∀ i, i < (sample_bits_with_offset fb P o).length →
      (((sample_bits_with_offset fb P o).getD i 0 = 1 ↔
        (1 : ℚ) / 2 ≤ meanQN (pySliceNat fb (o + i * P) (o + (i + 1) * P))) ∧
      ((sample_bits_with_offset fb P o).getD i 0 = 0 ∨
        (sample_bits_with_offset fb P o).getD i 0 = 1))) ∧
    ((∃ off, off < P ∧ berAt fb P expBits off ≠ none) →
      ∃ r, (best_alignment_and_ber fb P expBits).ber = some r ∧
        (best_alignment_and_ber fb P expBits).offset < P ∧
        berAt fb P expBits (best_alignment_and_ber fb P expBits).offset = some r ∧
        (∀ off, off < P → ∀ b, berAt fb P expBits off = some b → r ≤ b) ∧
        (∀ off, off < (best_alignment_and_ber fb P expBits).offset →
          berAt fb P expBits off ≠ some r)) := by
  refine ⟨?_, ?_, ?_⟩
  · rw [sample_bits_length]
    rw [Int.toNat_of_nonneg (le_max_left 0 _)]
  · intro i hi
    have hwin : pySliceNat fb (o + i * P) (o + (i + 1) * P) =
        (fb.drop (o + i * P)).take P := by
      unfold pySliceNat
      congr 1
      have hPP : (i + 1) * P = i * P + P := by ring
      omega
    rw [sample_bits_getD _ _ _ _ hi, hwin]
    constructor
    · by_cases hc : (1 : ℚ) / 2 ≤ meanQN ((fb.drop (o + i * P)).take P)
      · simp [hc]
      · simp [hc]
    · by_cases hc : (1 : ℚ) / 2 ≤ meanQN ((fb.drop (o + i * P)).take P)
      · rw [if_pos hc]; exact Or.inr rfl
      · rw [if_neg hc]; exact Or.inl rfl
  · intro ⟨off, hoff, hsome⟩
    rcases best_alignment_inv fb P expBits with ⟨hs, hall⟩ | ⟨hlt, r, hber, hbat, hmin, htie⟩
    · exact absurd (hall off hoff) hsome
    · exact ⟨r, hber, hlt, hbat, hmin, htie⟩

/-- Witness for claim C3 (amended) at `FrameBits = [1,1,1,0,0,0]`, `P = 3`,
`o = 0`, expected pattern `[1,0]`. -/
theorem claim_C3_witness :
    (((sample_bits_with_offset [1, 1, 1, 0, 0, 0] 3 0).length : ℤ) =
      max 0 (Int.fdiv ((([1, 1, 1, 0, 0, 0] : List ℕ).length : ℤ) - ((0 : ℕ) : ℤ)) ((3 : ℕ) : ℤ))) ∧
    (∀ i, i < (sample_bits_with_offset [1, 1, 1, 0, 0, 0] 3 0).length →
      (((sample_bits_with_offset [1, 1, 1, 0, 0, 0] 3 0).getD i 0 = 1 ↔
        (1 : ℚ) / 2 ≤ meanQN (pySliceNat [1, 1, 1, 0, 0, 0] (0 + i * 3) (0 + (i + 1) * 3))) ∧
      ((sample_bits_with_offset [1, 1, 1, 0, 0, 0] 3 0).getD i 0 = 0 ∨
        (sample_bits_with_offset [1, 1, 1, 0, 0, 0] 3 0).getD i 0 = 1))) ∧
    ((∃ off, off < 3 ∧ berAt [1, 1, 1, 0, 0, 0] 3 [1, 0] off ≠ none) →
      ∃ r, (best_alignment_and_ber [1, 1, 1, 0, 0, 0] 3 [1, 0]).ber = some r ∧
        (best_alignment_and_ber [1, 1, 1, 0, 0, 0] 3 [1, 0]).offset < 3 ∧
        berAt [1, 1, 1, 0, 0, 0] 3 [1, 0]
          (best_alignment_and_ber [1, 1, 1, 0, 0, 0] 3 [1, 0]).offset = some r ∧
        (∀ off, off < 3 → ∀ b, berAt [1, 1, 1, 0, 0, 0] 3 [1, 0] off = some b → r ≤ b) ∧
        (∀ off, off < (best_alignment_and_ber [1, 1, 1, 0, 0, 0] 3 [1, 0]).offset →
          berAt [1, 1, 1, 0, 0, 0] 3 [1, 0] off ≠ some r)) :=
  claim_C3_sampler_and_alignment [1, 1, 1, 0, 0, 0] 3 (by norm_num) 0 (by norm_num) [1, 0]

lemma oddWin_eq_specOddWin (win : ℤ) : oddWin win = specOddWin win := by
  unfold oddWin specOddWin
  rcases Int.emod_two_eq_zero_or_one win with h | h <;>
    simp only [h] <;> split_ifs <;> omega

lemma oddWin_ge3 (win : ℤ) : 3 ≤ oddWin win := by
  unfold oddWin
  split_ifs <;> omega

lemma oddWin_odd (win : ℤ) : oddWin win % 2 = 1 := by
  unfold oddWin
  rcases Int.emod_two_eq_zero_or_one win with h | h <;>
    simp only [h] <;> split_ifs <;> omega

lemma edgePad_length (x : List ℚ) (p : ℕ) :
    (edgePad x p).length = x.length + 2 * p := by
  simp [edgePad]
  omega

lemma headD_eq_getD (x : List ℚ) : x.headD 0 = x.getD 0 0 := by
  cases x <;> rfl

lemma getLastD_eq_getD (x : List ℚ) :
    x.getLastD 0 = x.getD (x.length - 1) 0 := by
  rw [List.getLastD_eq_getLast?, List.getLast?_eq_getElem?, List.getD_eq_getElem?_getD]

lemma edgePad_getD (x : List ℚ) (hx : x ≠ []) (p k : ℕ)
    (hk : k < x.length + 2 * p) :
    (edgePad x p).getD k 0 = x.getD (clampIdx x.length ((k : ℤ) - p)) 0 := by
  have hlen : 1 ≤ x.length := List.length_pos.mpr hx
  unfold edgePad clampIdx
  rw [List.append_assoc]
  by_cases h1 : k < p
  · rw [List.getD_append _ _ _ _ (by simpa using h1),
      List.getD_eq_getElem _ 0 (by simpa using h1), List.getElem_replicate,
      headD_eq_getD]
    congr 1
    omega
  · rw [List.getD_append_right _ _ _ _ (by simpa using not_lt.mp h1),
      List.length_replicate]
    by_cases h2 : k < p + x.length
    · rw [List.getD_append _ _ _ _ (by omega : k - p < x.length)]
      congr 1
      omega
    · rw [List.getD_append_right _ _ _ _ (by omega : x.length ≤ k - p),
        List.getD_eq_getElem _ 0
          (by simp only [List.length_replicate]; omega : k - p - x.length < (List.replicate p (x.getLastD 0)).length),
        List.getElem_replicate, getLastD_eq_getD]
      congr 1
      omega

lemma movingMedian_length (x : List ℚ) (w : ℕ) :
    (movingMedian x w).length = x.length := by
  simp [movingMedian]

lemma specWindow_length (x : List ℚ) (win : ℤ) (i : ℕ) :
    (specWindow x win i).length = specOddWin win := by
  simp [specWindow]

lemma movingMedian_getD (x : List ℚ) (hx : x ≠ []) (win : ℤ) (i : ℕ)
    (hi : i < x.length) :
    (movingMedian x (oddWin win)).getD i 0 = npMedian (specWindow x win i) := by
  have h3 := oddWin_ge3 win
  have hodd := oddWin_odd win
  unfold movingMedian
  rw [List.getD_eq_getElem _ 0 (by simpa using hi), List.getElem_map,
    List.getElem_range]
  congr 1
  apply List.ext_getElem
  · rw [specWindow_length, ← oddWin_eq_specOddWin]
    simp only [List.length_take, List.length_drop, edgePad_length]
    omega
  · intro j h1 h2
    have hj : j < oddWin win := by
      simp only [List.length_take, List.length_drop, edgePad_length] at h1
      omega
    have hk : i + j < x.length + 2 * (oddWin win / 2) := by omega
    rw [List.getElem_take, List.getElem_drop,
      ← List.getD_eq_getElem _ 0
        (by rw [edgePad_length]; omega : i + j < (edgePad x (oddWin win / 2)).length),
      edgePad_getD x hx _ _ hk]
    simp only [specWindow, ← oddWin_eq_specOddWin, List.getElem_map, List.getElem_range]
    congr 2

lemma detrend_length (x : List ℚ) (win : ℤ) : (detrend x win).length = x.length := by
  simp [detrend, movingMedian]

lemma detrend_getD (x : List ℚ) (hx : x ≠ []) (win : ℤ) (i : ℕ)
    (hi : i < x.length) :
    (detrend x win).getD i 0 = x.getD i 0 - npMedian (specWindow x win i) := by
  have hd : i < (detrend x win).length := by rwa [detrend_length]
  unfold detrend at hd ⊢
  rw [List.getD_eq_getElem _ 0 hd, List.getElem_zipWith,
    ← List.getD_eq_getElem x 0 hi,
    ← List.getD_eq_getElem _ 0 (by rwa [movingMedian_length] : i < (movingMedian x (oddWin win)).length),
    movingMedian_getD x hx win i hi]

/-- Claim C4: for every non-empty intensity series `x` and requested window
length `win`, `detrend(x, win)` preserves length and order, and its value
at index `i` is `x[i]` minus the median of the symmetric window of length
`specOddWin win` (the window coerced to the next odd integer ≥ 3) centered
at `i` over the edge-extended series. -/
theorem claim_C4_detrend (x : List ℚ) (hx : x ≠ []) (win : ℤ) :
    (detrend x win).length = x.length ∧
    ∀ i, i < x.length →
      (detrend x win).getD i 0 = x.getD i 0 - npMedian (specWindow x win i) :=
  ⟨detrend_length x win, fun i hi => detrend_getD x hx win i hi⟩

/-- Witness for claim C4 at the concrete series `[1, 2, 3]` and requested
window length 4 (coerced to 5). -/
theorem claim_C4_witness :
    (detrend [1, 2, 3] 4).length = ([1, 2, 3] : List ℚ).length ∧
    ∀ i, i < ([1, 2, 3] : List ℚ).length →
      (detrend [1, 2, 3] 4).getD i 0 =
        ([1, 2, 3] : List ℚ).getD i 0 - npMedian (specWindow [1, 2, 3] 4 i) :=
  claim_C4_detrend [1, 2, 3] (by simp) 4

lemma sortQ_map_add (l : List ℚ) (c : ℚ) :
    sortQ (l.map fun v => v + c) = (sortQ l).map fun v => v + c := by
  unfold sortQ
  have h1 : List.Sorted (· ≤ ·) (List.insertionSort (· ≤ ·) (l.map fun v => v + c)) :=
    List.sorted_insertionSort _ _
  have h2 : List.Sorted (· ≤ ·) ((List.insertionSort (· ≤ ·) l).map fun v => v + c) :=
    List.Pairwise.map _ (fun a b h => add_le_add_right h c)
      (List.sorted_insertionSort (· ≤ ·) l)
  have hp : (List.insertionSort (· ≤ ·) (l.map fun v => v + c)).Perm
      ((List.insertionSort (· ≤ ·) l).map fun v => v + c) :=
    (List.perm_insertionSort _ _).trans
      ((List.perm_insertionSort (· ≤ ·) l).map _).symm
  exact List.eq_of_perm_of_sorted hp h1 h2

lemma sortQ_length (l : List ℚ) : (sortQ l).length = l.length :=
  List.length_insertionSort _ l

lemma npMedian_map_add (l : List ℚ) (hl : l ≠ []) (c : ℚ) :
    npMedian (l.map fun v => v + c) = npMedian l + c := by
  have hlen : 1 ≤ l.length := List.length_pos.mpr hl
  have hs : (sortQ l).length = l.length := sortQ_length l
  unfold npMedian
  rw [sortQ_map_add, List.length_map]
  have hget : ∀ n, n < l.length →
      ((sortQ l).map fun v => v + c).getD n 0 = (sortQ l).getD n 0 + c := by
    intro n hn
    rw [List.getD_eq_getElem _ 0 (by simp [hs]; omega), List.getElem_map,
      List.getD_eq_getElem _ 0 (by omega : n < (sortQ l).length)]
  by_cases hpar : l.length % 2 = 1
  · rw [if_pos hpar, if_pos hpar, hget _ (by omega : l.length / 2 < l.length)]
  · rw [if_neg hpar, if_neg hpar, hget _ (by omega : l.length / 2 < l.length),
      hget _ (by omega : l.length / 2 - 1 < l.length)]
    ring

lemma edgePad_map_add (x : List ℚ) (hx : x ≠ []) (c : ℚ) (p : ℕ) :
    edgePad (x.map fun v => v + c) p = (edgePad x p).map fun v => v + c := by
  obtain ⟨a, t, rfl⟩ : ∃ a t, x = a :: t := by
    cases x with
    | nil => exact absurd rfl hx
    | cons a t => exact ⟨a, t, rfl⟩
  unfold edgePad
  rw [List.map_append, List.map_append, List.map_replicate, List.map_replicate]
  have hhead : ((a :: t).map fun v => v + c).headD 0 = (a :: t).headD 0 + c := rfl
  have hlast : ((a :: t).map fun v => v + c).getLastD 0 = (a :: t).getLastD 0 + c := by
    rw [List.getLastD_eq_getLast?, List.getLastD_eq_getLast?, List.getLast?_map]
    cases hl : (a :: t).getLast? with
    | none => simp at hl
    | some v => simp [hl]
  rw [hhead, hlast]

lemma movingMedian_map_add (x : List ℚ) (hx : x ≠ []) (c : ℚ) (w : ℕ)
    (hw : 3 ≤ w) (hodd : w % 2 = 1) :
    movingMedian (x.map fun v => v + c) w =
      (movingMedian x w).map fun v => v + c := by
  unfold movingMedian
  dsimp only
  rw [edgePad_map_add x hx c, List.length_map, List.map_map]
  apply List.map_congr_left
  intro i hi
  have hilt : i < x.length := List.mem_range.mp hi
  have hwin : ((((edgePad x (w / 2)).map fun v => v + c).drop i).take w) =
      (((edgePad x (w / 2)).drop i).take w).map fun v => v + c := by
    rw [← List.map_drop, ← List.map_take]
  rw [Function.comp_apply, hwin, npMedian_map_add]
  have hlen : (((edgePad x (w / 2)).drop i).take w).length = w := by
    simp only [List.length_take, List.length_drop, edgePad_length]
    omega
  intro hnil
  rw [hnil] at hlen
  simp at hlen
  omega

lemma detrend_map_add (x : List ℚ) (hx : x ≠ []) (c : ℚ) (win : ℤ) :
    detrend (x.map fun v => v + c) win = detrend x win := by
  unfold detrend
  rw [movingMedian_map_add x hx c (oddWin win) (oddWin_ge3 win) (oddWin_odd win)]
  apply List.ext_getElem
  · simp
  · intro i h1 h2
    simp only [List.getElem_zipWith, List.getElem_map]
    ring

/-- Claim C8: adding a constant `c` to every intensity sample changes
neither the detrended series, nor the binarization threshold, nor any
per-frame ON/OFF bit: the moving-median baseline absorbs a constant
illumination offset exactly. -/
theorem claim_C8_additive_invariance (x : List ℚ) (hx : x ≠ []) (c : ℚ)
    (win : ℤ) (k : ℚ) :
    detrend (x.map fun v => v + c) win = detrend x win ∧
    (to_binary (detrend (x.map fun v => v + c) win) k).2 =
      (to_binary (detrend x win) k).2 ∧
    (to_binary (detrend (x.map fun v => v + c) win) k).1 =
      (to_binary (detrend x win) k).1 := by
  have h := detrend_map_add x hx c win
  exact ⟨h, by rw [h], by rw [h]⟩

/-- Witness for claim C8 at the series `[1, 2, 4]`, offset 7, window 31,
`k = 5/2`. -/
theorem claim_C8_witness :
    detrend (([1, 2, 4] : List ℚ).map fun v => v + 7) 31 = detrend [1, 2, 4] 31 ∧
    (to_binary (detrend (([1, 2, 4] : List ℚ).map fun v => v + 7) 31) (5 / 2)).2 =
      (to_binary (detrend [1, 2, 4] 31) (5 / 2)).2 ∧
    (to_binary (detrend (([1, 2, 4] : List ℚ).map fun v => v + 7) 31) (5 / 2)).1 =
      (to_binary (detrend [1, 2, 4] 31) (5 / 2)).1 :=
  claim_C8_additive_invariance [1, 2, 4] (by simp) 7 31 (5 / 2)

lemma npVariance_nonneg (l : List ℚ) : 0 ≤ npVariance l := by
  unfold npVariance
  apply div_nonneg
  · apply List.sum_nonneg
    intro v hv
    simp only [List.mem_map] at hv
    obtain ⟨a, -, rfl⟩ := hv
    positivity
  · positivity

lemma npStd_eq_zero_iff (l : List ℚ) : npStd l = 0 ↔ npVariance l = 0 := by
  unfold npStd
  rw [Real.sqrt_eq_zero (by exact_mod_cast npVariance_nonneg l)]
  constructor <;> intro h <;> exact_mod_cast h

lemma npVariance_replicate (n : ℕ) (c : ℚ) (hn : 0 < n) :
    npVariance (List.replicate n c) = 0 := by
  have hc : meanQ (List.replicate n c) = c := by
    unfold meanQ
    rw [List.sum_replicate, List.length_replicate, nsmul_eq_mul]
    field_simp
  unfold npVariance
  rw [hc]
  simp [List.map_replicate, List.sum_replicate]

open Classical in
/-- Claim C5: the binarization threshold is
`median(d) + k * sigma`, where `sigma` is the standard deviation of `d`
replaced by the small positive epsilon `1e-9` when it is exactly 0; that
sigma is always strictly positive; frame `i` is ON exactly when its
detrended value strictly exceeds the threshold; the output covers every
frame; and a constant series has standard deviation exactly 0, so
binarization proceeds on the epsilon-floored threshold instead of
failing. -/
theorem claim_C5_binarization (d : List ℚ) (hd : d ≠ []) (k : ℚ) :
    (to_binary d k).2 =
      (npMedian d : ℝ) + (k : ℝ) * (if npStd d = 0 then (1 : ℝ) / 10 ^ 9 else npStd d) ∧
    (0 : ℝ) < (if npStd d = 0 then (1 : ℝ) / 10 ^ 9 else npStd d) ∧
    (to_binary d k).1.length = d.length ∧
    (∀ i, i < d.length →
      ((to_binary d k).1.getD i 0 = 1 ↔ ((d.getD i 0 : ℝ) > (to_binary d k).2))) ∧
    (∀ c, d = List.replicate d.length c → npStd d = 0) := by
  refine ⟨rfl, ?_, ?_, ?_, ?_⟩
  · by_cases h : npStd d = 0
    · rw [if_pos h]
      norm_num
    · rw [if_neg h]
      exact lt_of_le_of_ne (Real.sqrt_nonneg _) (Ne.symm h)
  · simp [to_binary]
  · intro i hi
    have hi' : i < (to_binary d k).1.length := by simp [to_binary, hi]
    unfold to_binary at hi' ⊢
    rw [List.getD_eq_getElem _ 0 hi', List.getElem_map, List.getD_eq_getElem _ 0 hi]
    by_cases h : (d[i] : ℝ) > (npMedian d : ℝ) +
        (k : ℝ) * (if npStd d = 0 then (1 : ℝ) / 10 ^ 9 else npStd d)
    · rw [if_pos h]
      exact iff_of_true rfl h
    · rw [if_neg h]
      exact iff_of_false (by norm_num) h
  · intro c hrep
    rw [npStd_eq_zero_iff]
    have hn : 0 < d.length := List.length_pos.mpr hd
    set n := d.length with hn'
    rw [hrep]
    exact npVariance_replicate n c hn

open Classical in
/-- Witness for claim C5 at the constant (zero-variance) series `[2, 2]`
and `k = 5/2`. -/
theorem claim_C5_witness :
    (to_binary [2, 2] (5 / 2)).2 =
      (npMedian [2, 2] : ℝ) + ((5 / 2 : ℚ) : ℝ) *
        (if npStd [2, 2] = 0 then (1 : ℝ) / 10 ^ 9 else npStd [2, 2]) ∧
    (0 : ℝ) < (if npStd [2, 2] = 0 then (1 : ℝ) / 10 ^ 9 else npStd [2, 2]) ∧
    (to_binary [2, 2] (5 / 2)).1.length = ([2, 2] : List ℚ).length ∧
    (∀ i, i < ([2, 2] : List ℚ).length →
      ((to_binary [2, 2] (5 / 2)).1.getD i 0 = 1 ↔
        ((([2, 2] : List ℚ).getD i 0 : ℝ) > (to_binary [2, 2] (5 / 2)).2))) ∧
    (∀ c, ([2, 2] : List ℚ) = List.replicate ([2, 2] : List ℚ).length c →
      npStd [2, 2] = 0) :=
  claim_C5_binarization [2, 2] (by simp) (5 / 2)

lemma argmaxGo_spec (r : List ℚ) : ∀ (bi i : ℕ) (bv : ℚ),
    (argmaxGo bi bv i r = bi ∧ ∀ t, t < r.length → r.getD t 0 ≤ bv) ∨
    (∃ t, t < r.length ∧ argmaxGo bi bv i r = i + t ∧ bv < r.getD t 0 ∧
      (∀ u, u < r.length → r.getD u 0 ≤ r.getD t 0) ∧
      (∀ u, u < t → r.getD u 0 < r.getD t 0)) := by
  induction r with
  | nil =>
    intro bi i bv
    exact Or.inl ⟨rfl, fun t ht => absurd ht (by simp)⟩
  | cons v rest ih =>
    intro bi i bv
    unfold argmaxGo
    by_cases hv : bv < v
    · rw [if_pos hv]
      rcases ih i (i + 1) v with ⟨heq, hall⟩ | ⟨t, ht, heq, hgt, hmax, hstrict⟩
      · refine Or.inr ⟨0, by simp, by rw [heq]; omega, by simpa using hv, ?_, ?_⟩
        · intro u hu
          cases u with
          | zero => simp
          | succ u' =>
            simp only [List.getD_cons_succ, List.getD_cons_zero]
            exact hall u' (by simpa using hu)
        · intro u hu
          omega
      · refine Or.inr ⟨t + 1, by simpa using ht, by rw [heq]; omega, ?_, ?_, ?_⟩
        · simp only [List.getD_cons_succ]
          exact lt_trans hv hgt
        · intro u hu
          cases u with
          | zero =>
            simp only [List.getD_cons_zero, List.getD_cons_succ]
            exact le_of_lt hgt
          | succ u' =>
            simp only [List.getD_cons_succ]
            exact hmax u' (by simpa using hu)
        · intro u hu
          cases u with
          | zero =>
            simp only [List.getD_cons_zero, List.getD_cons_succ]
            exact hgt
          | succ u' =>
            simp only [List.getD_cons_succ]
            exact hstrict u' (by omega)
    · rw [if_neg hv]
      push_neg at hv
      rcases ih bi (i + 1) bv with ⟨heq, hall⟩ | ⟨t, ht, heq, hgt, hmax, hstrict⟩
      · refine Or.inl ⟨heq, ?_⟩
        intro u hu
        cases u with
        | zero => simpa using hv
        | succ u' =>
          simp only [List.getD_cons_succ]
          exact hall u' (by simpa using hu)
      · refine Or.inr ⟨t + 1, by simpa using ht, by rw [heq]; omega, ?_, ?_, ?_⟩
        · simp only [List.getD_cons_succ]
          exact hgt
        · intro u hu
          cases u with
          | zero =>
            simp only [List.getD_cons_zero, List.getD_cons_succ]
            exact le_of_lt (lt_of_le_of_lt hv hgt)
          | succ u' =>
            simp only [List.getD_cons_succ]
            exact hmax u' (by simpa using hu)
        · intro u hu
          cases u with
          | zero =>
            simp only [List.getD_cons_zero, List.getD_cons_succ]
            exact lt_of_le_of_lt hv hgt
          | succ u' =>
            simp only [List.getD_cons_succ]
            exact hstrict u' (by omega)

lemma argmaxFirst_spec (l : List ℚ) (hl : l ≠ []) :
    argmaxFirst l < l.length ∧
    (∀ j, j < l.length → l.getD j 0 ≤ l.getD (argmaxFirst l) 0) ∧
    (∀ j, j < argmaxFirst l → l.getD j 0 < l.getD (argmaxFirst l) 0) := by
  cases l with
  | nil => exact absurd rfl hl
  | cons v rest =>
    simp only [argmaxFirst]
    rcases argmaxGo_spec rest 0 1 v with ⟨heq, hall⟩ | ⟨t, ht, heq, hgt, hmax, hstrict⟩
    · rw [heq]
      refine ⟨by simp, ?_, by omega⟩
      intro j hj
      cases j with
      | zero => simp
      | succ j' =>
        simp only [List.getD_cons_succ, List.getD_cons_zero]
        exact hall j' (by simpa using hj)
    · rw [heq]
      have h1t : (1 : ℕ) + t = t + 1 := by omega
      rw [h1t]
      refine ⟨by simp; omega, ?_, ?_⟩
      · intro j hj
        cases j with
        | zero =>
          simp only [List.getD_cons_zero, List.getD_cons_succ]
          exact le_of_lt hgt
        | succ j' =>
          simp only [List.getD_cons_succ]
          exact hmax j' (by simpa using hj)
      · intro j hj
        cases j with
        | zero =>
          simp only [List.getD_cons_zero, List.getD_cons_succ]
          exact hgt
        | succ j' =>
          simp only [List.getD_cons_succ]
          exact hstrict j' (by omega)

/-- Claim C6: in auto mode the estimator returns `max(1, L // 2)` together
with `L`, where `L` is the first lag of maximum autocorrelation of the
mean-removed signal within the configured `[min_lag, max_lag)` search
window; when the window is degenerate (`max_lag ≤ min_lag + 1`) it returns
no estimate and the decoder keeps the operator-supplied (or default) bit
period. -/
theorem claim_C6_bitperiod_estimator (signal : List ℚ) (hs : signal ≠ [])
    (fps minMs maxMs : ℚ) (supplied : ℕ) :
    (maxLagOf signal.length fps maxMs ≤ (minLagOf fps minMs : ℤ) + 1 →
      estimate_bitperiod_autocorr signal fps minMs maxMs = none) ∧
    (estimate_bitperiod_autocorr signal fps 60 220 = none →
      chosenBitPeriod true supplied signal fps = (supplied, none)) ∧
    ((minLagOf fps minMs : ℤ) + 1 < maxLagOf signal.length fps maxMs →
      ∃ L : ℕ, minLagOf fps minMs ≤ L ∧
        (L : ℤ) < maxLagOf signal.length fps maxMs ∧
        (∀ m : ℕ, minLagOf fps minMs ≤ m →
          (m : ℤ) < maxLagOf signal.length fps maxMs →
          acf (centered signal) m ≤ acf (centered signal) L) ∧
        (∀ m : ℕ, minLagOf fps minMs ≤ m → m < L →
          acf (centered signal) m < acf (centered signal) L) ∧
        estimate_bitperiod_autocorr signal fps minMs maxMs =
          some (max 1 (L / 2), L)) := by
  refine ⟨?_, ?_, ?_⟩
  · intro h
    unfold estimate_bitperiod_autocorr
    rw [if_pos h]
  · intro h
    simp [chosenBitPeriod, h]
  · intro h
    have hmaxn : maxLagOf signal.length fps maxMs ≤ (signal.length : ℤ) / 2 :=
      min_le_left _ _
    have hT : minLagOf fps minMs + 2 ≤ (maxLagOf signal.length fps maxMs).toNat := by
      omega
    have hTn : (maxLagOf signal.length fps maxMs).toNat ≤ signal.length := by omega
    set sl := ((((List.range signal.length).map (acf (centered signal))).drop
      (minLagOf fps minMs)).take
      ((maxLagOf signal.length fps maxMs).toNat - minLagOf fps minMs)) with hsl
    have hslen : sl.length =
        (maxLagOf signal.length fps maxMs).toNat - minLagOf fps minMs := by
      rw [hsl]
      simp only [List.length_take, List.length_drop, List.length_map, List.length_range]
      omega
    have hsne : sl ≠ [] := List.length_pos.mp (by omega)
    have hget : ∀ t, t < sl.length →
        sl.getD t 0 = acf (centered signal) (minLagOf fps minMs + t) := by
      intro t ht
      rw [hsl, List.getD_eq_getElem _ 0 (by rw [← hsl]; exact ht),
        List.getElem_take, List.getElem_drop, List.getElem_map, List.getElem_range]
    obtain ⟨hidx, hle, hlt⟩ := argmaxFirst_spec sl hsne
    refine ⟨argmaxFirst sl + minLagOf fps minMs, by omega, by omega, ?_, ?_, ?_⟩
    · intro m hm1 hm2
      have hmt : m - minLagOf fps minMs < sl.length := by omega
      have h1 := hle (m - minLagOf fps minMs) hmt
      rw [hget _ hmt, hget _ hidx] at h1
      have hmm : minLagOf fps minMs + (m - minLagOf fps minMs) = m := by omega
      rw [hmm] at h1
      rw [Nat.add_comm (argmaxFirst sl) (minLagOf fps minMs)]
      exact h1
    · intro m hm1 hm2
      have hmt : m - minLagOf fps minMs < argmaxFirst sl := by omega
      have h1 := hlt (m - minLagOf fps minMs) hmt
      rw [hget _ (by omega : m - minLagOf fps minMs < sl.length), hget _ hidx] at h1
      have hmm : minLagOf fps minMs + (m - minLagOf fps minMs) = m := by omega
      rw [hmm] at h1
      rw [Nat.add_comm (argmaxFirst sl) (minLagOf fps minMs)]
      exact h1
    · unfold estimate_bitperiod_autocorr
      rw [if_neg (not_le.mpr h)]

/-- Witness for claim C6 on a concrete period-4 square-wave signal of 10
samples at 30 fps with the default 60-220 ms search window (non-degenerate:
`min_lag = 3`, `max_lag = 5`). -/
theorem claim_C6_witness :
    (maxLagOf ([1, 0, -1, 0, 1, 0, -1, 0, 1, 0] : List ℚ).length 30 220 ≤
        (minLagOf 30 60 : ℤ) + 1 →
      estimate_bitperiod_autocorr [1, 0, -1, 0, 1, 0, -1, 0, 1, 0] 30 60 220 = none) ∧
    (estimate_bitperiod_autocorr [1, 0, -1, 0, 1, 0, -1, 0, 1, 0] 30 60 220 = none →
      chosenBitPeriod true 3 [1, 0, -1, 0, 1, 0, -1, 0, 1, 0] 30 = (3, none)) ∧
    ((minLagOf 30 60 : ℤ) + 1 <
        maxLagOf ([1, 0, -1, 0, 1, 0, -1, 0, 1, 0] : List ℚ).length 30 220 →
      ∃ L : ℕ, minLagOf 30 60 ≤ L ∧
        (L : ℤ) < maxLagOf ([1, 0, -1, 0, 1, 0, -1, 0, 1, 0] : List ℚ).length 30 220 ∧
        (∀ m : ℕ, minLagOf 30 60 ≤ m →
          (m : ℤ) < maxLagOf ([1, 0, -1, 0, 1, 0, -1, 0, 1, 0] : List ℚ).length 30 220 →
          acf (centered [1, 0, -1, 0, 1, 0, -1, 0, 1, 0]) m ≤
            acf (centered [1, 0, -1, 0, 1, 0, -1, 0, 1, 0]) L) ∧
        (∀ m : ℕ, minLagOf 30 60 ≤ m → m < L →
          acf (centered [1, 0, -1, 0, 1, 0, -1, 0, 1, 0]) m <
            acf (centered [1, 0, -1, 0, 1, 0, -1, 0, 1, 0]) L) ∧
        estimate_bitperiod_autocorr [1, 0, -1, 0, 1, 0, -1, 0, 1, 0] 30 60 220 =
          some (max 1 (L / 2), L)) :=
  claim_C6_bitperiod_estimator [1, 0, -1, 0, 1, 0, -1, 0, 1, 0] (by simp) 30 60 220 3

end ETHERLED
